import Mathlib

/-!
Verification of the structural-optimization pipeline (stopt_2025.py).

Shallow embedding conventions:
* numpy 1-D arrays are Lean lists (or index functions with an explicit
  length where only indexed access occurs); 2-D arrays are curried index
  functions `Nat -> Nat -> Q` read as `a i j` for row i, column j;
* rational numbers stand for the exact values of the float computations
  in the algebraic parts of the code; the Gaussian filter, which needs
  the exponential, is embedded over the reals;
* scipy COO-matrix construction accumulates duplicate (row, col)
  triplets by addition, which is modelled by a sum over the triplet list;
* the sparse LU solve (scipy splu, an external library) is modelled from
  the spec as the exact solution of the assembled linear system.
-/

/-! ## Generic list helpers (numpy-style indexing) -/

/-- Write a list of (value, slot) pairs into an accumulator list:
`acc[slot] := value` performed left to right.  This is the elementwise
semantics of the numpy fancy assignment `acc[indices] = arange(...)`. -/
def writeSlots : List (ℕ × ℕ) → List ℕ → List ℕ
  | [], acc => acc
  | kv :: rest, acc => writeSlots rest (acc.set kv.2 kv.1)

/-! ## Problem setup (get_args, lines 14-30) -/

/-- Line 17, `np.flatnonzero(normals.ravel())`: the sorted list of indices
of the nonzero entries of the ravelled normals array. -/
def fixdofs_of (normals : List ℚ) : List ℕ :=
  (List.range normals.length).filter fun i => decide (normals.getD i 0 ≠ 0)

/-- Lines 18-19: `alldofs = arange(2*(width+1)*(height+1))` and
`freedofs = np.sort(list(set(alldofs) - set(fixdofs)))`.  The sorted
set difference is the in-order filter of the ascending range. -/
def get_args_freedofs (width height : ℕ) (normals : List ℚ) : List ℕ :=
  (List.range (2 * (width + 1) * (height + 1))).filter fun d =>
    decide (d ∉ fixdofs_of normals)

/-! ## Material model (young_modulus, lines 40-41) -/

/-- `young_modulus(x, e_0, e_min, p) = e_min + x ** p * (e_0 - e_min)`.
The penalization exponent is the integer 3 in this pipeline, so it is
embedded as a natural-number exponent. -/
def young_modulus (x e_0 e_min : ℚ) (p : ℕ) : ℚ :=
  e_min + x ^ p * (e_0 - e_min)

/-! ## Element stiffness matrix (get_stiffness_matrix, lines 75-85) -/

/-- The coefficient vector `k` of line 76-77. -/
def stiffness_k (nu : ℚ) : List ℚ :=
  [1/2 - nu/6, 1/8 + nu/8, -1/4 - nu/12, -1/8 + 3*nu/8,
   -1/4 + nu/12, -1/8 - nu/8, nu/6, 1/8 - 3*nu/8]

/-- The 8 x 8 element stiffness matrix of lines 78-85, row by row,
entry (a, b) of `e/(1-nu**2) * [[k[0], k[1], ...], ...]`. -/
def get_stiffness_matrix (e nu : ℚ) (a b : ℕ) : ℚ :=
  let k := fun m => (stiffness_k nu).getD m 0
  let rows : List (List ℚ) :=
    [[k 0, k 1, k 2, k 3, k 4, k 5, k 6, k 7],
     [k 1, k 0, k 7, k 6, k 5, k 4, k 3, k 2],
     [k 2, k 7, k 0, k 5, k 6, k 3, k 4, k 1],
     [k 3, k 6, k 5, k 0, k 7, k 2, k 1, k 4],
     [k 4, k 5, k 6, k 7, k 0, k 1, k 2, k 3],
     [k 5, k 4, k 3, k 2, k 1, k 0, k 7, k 6],
     [k 6, k 3, k 4, k 1, k 2, k 7, k 0, k 5],
     [k 7, k 2, k 1, k 4, k 3, k 6, k 5, k 0]]
  e / (1 - nu ^ 2) * ((rows.getD a []).getD b 0)

/-! ## Global assembly (get_k, lines 87-106)

In get_k, `ely, elx = meshgrid(range(nely), range(nelx))` followed by
`reshape(-1, 1)` enumerates elements with flat index `e = elx*nely + ely`,
so `elx = e / nely` and `ely = e % nely`. -/

/-- `edof[e]`, the 8 global DOF indices of element `e` (lines 94-99):
nodes n1..n4 of the element, two DOFs each. -/
def edof (nely : ℕ) (e a : ℕ) : ℕ :=
  let elx := e / nely
  let ely := e % nely
  let n1 := (nely + 1) * (elx + 0) + (ely + 0)
  let n2 := (nely + 1) * (elx + 1) + (ely + 0)
  let n3 := (nely + 1) * (elx + 1) + (ely + 1)
  let n4 := (nely + 1) * (elx + 0) + (ely + 1)
  [2*n1, 2*n1+1, 2*n2, 2*n2+1, 2*n3, 2*n3+1, 2*n4, 2*n4+1].getD a 0

/-- `x_list = np.repeat(edof, 8)` (line 100): flat triplet index
`t = 64*e + 8*a + b` holds `edof[e][a]`. -/
def x_list (nely : ℕ) (t : ℕ) : ℕ :=
  edof nely (t / 64) ((t % 64) / 8)

/-- `y_list = np.tile(edof, 8).flatten()` (line 101): flat triplet index
`t = 64*e + 8*a + b` holds `edof[e][b]`. -/
def y_list (nely : ℕ) (t : ℕ) : ℕ :=
  edof nely (t / 64) (t % 8)

/-- `kd = stiffness.T.reshape(nelx*nely, 1, 1)` (line 104): the per-element
stiffness factor listed in element order `e = elx*nely + ely`, reading
the (nely, nelx)-shaped stiffness grid at `(ely, elx)`. -/
def kd (nely : ℕ) (stiffness : ℕ → ℕ → ℚ) (e : ℕ) : ℚ :=
  stiffness (e % nely) (e / nely)

/-- `value_list = (kd * np.tile(ke, kd.shape)).flatten()` (line 105):
flat triplet index `t = 64*e + 8*a + b` holds `kd[e] * ke[a][b]`. -/
def value_list (nely : ℕ) (stiffness ke : ℕ → ℕ → ℚ) (t : ℕ) : ℚ :=
  kd nely stiffness (t / 64) * ke ((t % 64) / 8) (t % 8)

/-- Number of emitted triplets: 64 per element. -/
def trip_len (nely nelx : ℕ) : ℕ :=
  64 * (nely * nelx)

/-- The involution on flat triplet positions `t = 64*e + 8*a + b` that
swaps the local pair to `64*e + 8*b + a` (used to express the symmetry
of the assembled matrix). -/
def tripSwap (t : ℕ) : ℕ :=
  64 * (t / 64) + 8 * (t % 8) + t % 64 / 8

/-- `get_k` (lines 87-106) returns `(value_list, y_list, x_list)` as
index functions over the `trip_len` triplets. -/
def get_k (nely : ℕ) (stiffness ke : ℕ → ℕ → ℚ) :
    (ℕ → ℚ) × (ℕ → ℕ) × (ℕ → ℕ) :=
  (value_list nely stiffness ke, y_list nely, x_list nely)

/-! ## Sparse matrix helpers (lines 120-136) -/

/-- `inverse_permutation` (lines 128-131): start from a zero array of the
same length and assign `inverse_perm[indices] = arange(len(indices))`. -/
def inverse_permutation (indices : List ℕ) : List ℕ :=
  writeSlots indices.enum (List.replicate indices.length 0)

/-- `index_map = inverse_permutation(concatenate([freedofs, fixdofs]))`
(line 121). -/
def index_map (freedofs fixdofs : List ℕ) : List ℕ :=
  inverse_permutation (freedofs ++ fixdofs)

/-- `keep = isin(k_xlist, freedofs) & isin(k_ylist, freedofs)` (line 122)
applied as a boolean mask: the positions of the kept triplets, in order. -/
def keptIdx (freedofs : List ℕ) (kx ky : ℕ → ℕ) (len : ℕ) : List ℕ :=
  (List.range len).filter fun t =>
    decide (kx t ∈ freedofs) && decide (ky t ∈ freedofs)

/-- `i = index_map[k_ylist][keep]` (line 124). -/
def dof_i (freedofs fixdofs : List ℕ) (kx ky : ℕ → ℕ) (len : ℕ) : List ℕ :=
  (keptIdx freedofs kx ky len).map fun t =>
    (index_map freedofs fixdofs).getD (ky t) 0

/-- `j = index_map[k_xlist][keep]` (line 125). -/
def dof_j (freedofs fixdofs : List ℕ) (kx ky : ℕ → ℕ) (len : ℕ) : List ℕ :=
  (keptIdx freedofs kx ky len).map fun t =>
    (index_map freedofs fixdofs).getD (kx t) 0

/-- `scipy.sparse.coo_matrix((a_entries, a_indices))` entry (r, c):
duplicate (row, col) triplets are accumulated by addition. -/
def listCooMat (entries : List ℚ) (rows cols : List ℕ) (r c : ℕ) : ℚ :=
  ((entries.zip (rows.zip cols)).map fun v =>
    if v.2.1 = r ∧ v.2.2 = c then v.1 else 0).sum

/-- The assembled `size x size` COO matrix of `_get_solver` (line 135). -/
def solveMatrix (a_entries : List ℚ) (a_indices : List ℕ × List ℕ)
    (n : ℕ) : Matrix (Fin n) (Fin n) ℚ :=
  Matrix.of fun r c => listCooMat a_entries a_indices.1 a_indices.2 r.1 c.1

/-! ## The solve primitive (solve_coo, lines 139-142) -/

/-- Modelled from the spec: `solve_coo` calls `_get_solver`, which wraps
`scipy.sparse.linalg.splu(a).solve`, an external library routine absent
from the source.  Per the spec (SparseSolver), it must "produce the
displacement on free DOFs" of the reduced system, i.e. the exact solution
of `A u = b` for the COO matrix `A` of size `b.size`; this is embedded by
the Cramer rule `u = adjugate(A) b / det(A)`, which satisfies `A u = b`
whenever `det A` is nonzero.  The `sym_pos` flag is accepted and ignored,
as in `_get_solver`. -/
def solve_coo (a_entries : List ℚ) (a_indices : List ℕ × List ℕ)
    (b : List ℚ) (sym_pos : Bool) : List ℚ :=
  List.ofFn fun i : Fin b.length =>
    ((solveMatrix a_entries a_indices b.length).adjugate.mulVec
        (fun j => b.getD j.1 0)) i
      / (solveMatrix a_entries a_indices b.length).det

/-- `a_indices[::-1]` on the 2 x m stacked index array `[i, j]`: the
reversed stack `[j, i]` (line 146). -/
def revStack (p : List ℕ × List ℕ) : List ℕ × List ℕ :=
  (p.2, p.1)

/-! ## Displacement (displace, lines 108-117) -/

/-- `stiffness = young_modulus(x_phys, e_0, e_min, p=penal)` (line 110). -/
def stiffness_field (x_phys : ℕ → ℕ → ℚ) (penal : ℕ) (e_min e_0 : ℚ) :
    ℕ → ℕ → ℚ :=
  fun i j => young_modulus (x_phys i j) e_0 e_min penal

/-- `k_entries[keep]` (line 115): the kept triplet values, in order.
NOTE on the argument swap in the source: displace calls
`_get_dof_indices(freedofs, fixdofs, k_ylist, k_xlist)` against the
parameter list `(freedofs, fixdofs, k_xlist, k_ylist)`, so inside the
helper `k_xlist` is bound to the tile list and `k_ylist` to the repeat
list; the kept rows are therefore `index_map[x_list]` and the kept
columns `index_map[y_list]`. -/
def kept_entries (nely nelx : ℕ) (stiffness ke : ℕ → ℕ → ℚ)
    (freedofs : List ℕ) : List ℚ :=
  (keptIdx freedofs (y_list nely) (x_list nely) (trip_len nely nelx)).map
    (value_list nely stiffness ke)

/-- The reduced system index rows, `i` of `_get_dof_indices` under the
call swap of displace (see `kept_entries`). -/
def kept_rows (nely nelx : ℕ) (freedofs fixdofs : List ℕ) : List ℕ :=
  dof_i freedofs fixdofs (y_list nely) (x_list nely) (trip_len nely nelx)

/-- The reduced system index columns, `j` of `_get_dof_indices`. -/
def kept_cols (nely nelx : ℕ) (freedofs fixdofs : List ℕ) : List ℕ :=
  dof_j freedofs fixdofs (y_list nely) (x_list nely) (trip_len nely nelx)

/-- `displace` (lines 108-117): assemble the stiffness triplets, keep the
free-free ones, solve the reduced system on `forces[freedofs]`, pad with
zeros for the fixed DOFs and un-permute through `index_map`. -/
def displace (nely nelx : ℕ) (x_phys ke : ℕ → ℕ → ℚ) (forces : ℕ → ℚ)
    (freedofs fixdofs : List ℕ) (penal : ℕ) (e_min e_0 : ℚ) : List ℚ :=
  let stiffness := stiffness_field x_phys penal e_min e_0
  let imap := index_map freedofs fixdofs
  let u_nonzero := solve_coo
    (kept_entries nely nelx stiffness ke freedofs)
    (kept_rows nely nelx freedofs fixdofs, kept_cols nely nelx freedofs fixdofs)
    (freedofs.map forces) true
  let u_values := u_nonzero ++ List.replicate fixdofs.length 0
  (List.range imap.length).map fun d => u_values.getD (imap.getD d 0) 0

/-! ## Custom gradient of the solve (lines 144-154) -/

/-- `grad_solve_coo_entries` (lines 144-150): the registered reverse-mode
rule of `solve_coo` with respect to `a_entries`.  `ans` is the forward
solution; the rule solves against the incoming output gradient
(`a_indices` as is when `sym_pos`, else the reversed stack
`a_indices[::-1]`) and returns `-lambda_[i] * ans[j]` elementwise. -/
def grad_solve_coo_entries (ans a_entries : List ℚ)
    (a_indices : List ℕ × List ℕ) (b : List ℚ) (sym_pos : Bool)
    (grad_ans : List ℚ) : List ℚ :=
  let lambda_ := solve_coo a_entries
    (if sym_pos then a_indices else revStack a_indices) grad_ans sym_pos
  (a_indices.1.zip a_indices.2).map fun ij =>
    -(lambda_.getD ij.1 0) * ans.getD ij.2 0

/-- The `defvjp` registration of lines 152-154, by argument number:
argnum 0 (`a_entries`) gets `grad_solve_coo_entries`; argnums 1
(`a_indices`) and 2 (`b`) get zero-parameter lambdas whose bodies would
print the quoted messages.  Requesting those gradients makes autograd
invoke the registered maker with the forward arguments, which a
zero-parameter lambda cannot accept: the request raises instead of
returning a value.  This is embedded as `Except.error` carrying the
message string of the registered lambda. -/
def solve_coo_vjp (argnum : ℕ) :
    Except String
      (List ℚ → List ℚ → List ℕ × List ℕ → List ℚ → Bool →
        List ℚ → List ℚ) :=
  match argnum with
  | 0 => Except.ok grad_solve_coo_entries
  | 1 => Except.error "err: gradient undefined"
  | 2 => Except.error "err: gradient not implemented"
  | _ => Except.error "VJP of solve_coo not registered for this argument"

/-! ## Compliance (compliance, lines 59-73)

In compliance, `ely, elx = meshgrid(range(nely), range(nelx))` without
reshape, so the node arrays are indexed by the (elx, ely) grid position
directly. -/

/-- `all_ixs` of line 67: the a-th of the 8 global DOF indices of the
element at grid position (elx, ely). -/
def all_ixs (nely : ℕ) (a elx ely : ℕ) : ℕ :=
  let n1 := (nely + 1) * (elx + 0) + (ely + 0)
  let n2 := (nely + 1) * (elx + 1) + (ely + 0)
  let n3 := (nely + 1) * (elx + 1) + (ely + 1)
  let n4 := (nely + 1) * (elx + 0) + (ely + 1)
  [2*n1, 2*n1+1, 2*n2, 2*n2+1, 2*n3, 2*n3+1, 2*n4, 2*n4+1].getD a 0

/-- `compliance` (lines 59-73): per element, gather the 8 displacement
entries `u[all_ixs]`, form the quadratic form through `ke` (the two
einsum contractions), scale by the material model and sum. -/
def compliance (nely nelx : ℕ) (x_phys : ℕ → ℕ → ℚ) (u : ℕ → ℚ)
    (ke : ℕ → ℕ → ℚ) (penal : ℕ) (e_min e_0 : ℚ) : ℚ :=
  ∑ elx in Finset.range nelx, ∑ ely in Finset.range nely,
    young_modulus (x_phys ely elx) e_0 e_min penal *
      ∑ a in Finset.range 8, ∑ b in Finset.range 8,
        u (all_ixs nely a elx ely) * ke a b * u (all_ixs nely b elx ely)

/-! ## Gaussian filter (lines 156-163) and driver bookkeeping (166-198)

The filter wraps `scipy.ndimage.gaussian_filter(x, width, mode='reflect')`
(an external library): a separable correlation along each axis with the
normalized kernel `exp(-k^2 / (2 sigma^2))` for `|k| <= radius`, where
`radius = int(truncate * sigma + 0.5)` with `truncate = 4.0`, under
reflect boundary handling.  This needs the real exponential, hence the
noncomputable real-valued embedding. -/

/-- scipy boundary mode `reflect`, pattern (d c b a | a b c d | d c b a):
an out-of-range index is folded back into `[0, n)` with period `2n`. -/
def reflectIdx (n : ℕ) (i : ℤ) : ℕ :=
  let r := (i % (2 * (n : ℤ))).toNat
  if r < n then r else 2 * n - 1 - r

/-- scipy truncation radius `int(truncate * sigma + 0.5)`, `truncate = 4.0`
(nonnegative widths only, where int() truncation is the floor). -/
noncomputable def trunc_radius (sigma : ℝ) : ℕ :=
  ⌊4 * sigma + 1/2⌋₊

/-- Unnormalized Gaussian kernel value `exp(-k^2 / (2 sigma^2))`. -/
noncomputable def gkernel (sigma : ℝ) (k : ℤ) : ℝ :=
  Real.exp (-((k : ℝ) ^ 2) / (2 * sigma ^ 2))

/-- Kernel normalizer `phi_x.sum()`. -/
noncomputable def gnorm (sigma : ℝ) : ℝ :=
  ∑ k in Finset.Icc (-(trunc_radius sigma : ℤ)) (trunc_radius sigma : ℤ),
    gkernel sigma k

/-- Normalized kernel weight. -/
noncomputable def gweight (sigma : ℝ) (k : ℤ) : ℝ :=
  gkernel sigma k / gnorm sigma

/-- `gaussian_filter(x, width)` (lines 156-158) on an (nely, nelx) grid:
the separable correlation, axis 0 (rows, inner sum) and axis 1 (columns,
outer sum), with reflect boundary handling. -/
noncomputable def gaussian_filter (nely nelx : ℕ) (x : ℕ → ℕ → ℝ)
    (sigma : ℝ) : ℕ → ℕ → ℝ :=
  fun y c =>
    ∑ k in Finset.Icc (-(trunc_radius sigma : ℤ)) (trunc_radius sigma : ℤ),
      gweight sigma k *
        ∑ m in Finset.Icc (-(trunc_radius sigma : ℤ)) (trunc_radius sigma : ℤ),
          gweight sigma m *
            x (reflectIdx nely ((y : ℤ) + m)) (reflectIdx nelx ((c : ℤ) + k))

/-- `reshape = lambda x: x.reshape(args.nely, args.nelx)` (line 170),
row-major. -/
def reshape (nely nelx : ℕ) (x : List ℝ) : ℕ → ℕ → ℝ :=
  fun i j => x.getD (i * nelx + j) 0

/-- `physical_density` (lines 43-45) on the default path
(`use_filter=True`): reshape, multiply by the scalar mask, filter. -/
noncomputable def physical_density (nely nelx : ℕ) (mask : ℝ)
    (filter_width : ℝ) (x : List ℝ) : ℕ → ℕ → ℝ :=
  gaussian_filter nely nelx (fun i j => mask * reshape nely nelx x i j)
    filter_width

/-- `wrap_autograd_func` (lines 174-187) as a pure state transformer.
`func` is the wrapped scalar callback and `gradFunc` the gradient that
`autograd.value_and_grad` would produce for it (the external AD
collaborator).  Returns (value, gradient buffer after the call, losses
after the call, frames after the call).  The gradient buffer is written
only when it is nonempty (`grad.size > 0`); `losses`/`frames` are `none`
when the corresponding trace list was not supplied (the default), and
each supplied list gets the value resp. the reshaped copy of the raw
design vector appended. -/
def wrap_autograd_func (func : List ℝ → ℝ) (gradFunc : List ℝ → List ℝ)
    (nely nelx : ℕ) (losses : Option (List ℝ))
    (frames : Option (List (ℕ → ℕ → ℝ))) (x grad : List ℝ) :
    ℝ × List ℝ × Option (List ℝ) × Option (List (ℕ → ℕ → ℝ)) :=
  let value := func x
  let grad' := if 0 < grad.length then gradFunc x else grad
  let losses' := losses.map fun ls => ls ++ [value]
  let frames' := frames.map fun fs => fs ++ [reshape nely nelx x]
  (value, grad', losses', frames')

/-- The one-hot 1 x 9 grid used as a concrete filter input. -/
def onehot9 : ℕ → ℕ → ℝ :=
  fun y c => if y = 0 ∧ c = 4 then 1 else 0

/-- Its flat design vector. -/
def x9 : List ℝ :=
  [0, 0, 0, 0, 1, 0, 0, 0, 0]

/-! ## List helper lemmas -/

theorem writeSlots_length (l : List (ℕ × ℕ)) (acc : List ℕ) :
    (writeSlots l acc).length = acc.length := by
  induction l generalizing acc with
  | nil => rfl
  | cons kv rest ih => simp [writeSlots, ih]

theorem getD_set_self (l : List ℕ) (i v : ℕ) (h : i < l.length) :
    (l.set i v).getD i 0 = v := by
  induction l generalizing i with
  | nil => exact absurd h (by simp)
  | cons a t ih =>
    cases i with
    | zero => rfl
    | succ n => exact ih n (Nat.lt_of_succ_lt_succ h)

theorem getD_set_ne (l : List ℕ) (i v d : ℕ) (h : i ≠ d) :
    (l.set i v).getD d 0 = l.getD d 0 := by
  induction l generalizing i d with
  | nil => simp
  | cons a t ih =>
    cases i with
    | zero =>
      cases d with
      | zero => exact absurd rfl h
      | succ m => rfl
    | succ n =>
      cases d with
      | zero => rfl
      | succ m => exact ih n m (fun hh => h (by rw [hh]))

theorem writeSlots_getD (l : List (ℕ × ℕ)) (acc : List ℕ) (d : ℕ)
    (hd : d < acc.length) :
    (writeSlots l acc).getD d 0 =
      l.foldl (fun cur kv => if kv.2 = d then kv.1 else cur) (acc.getD d 0) := by
  induction l generalizing acc with
  | nil => rfl
  | cons kv rest ih =>
    have hlen : d < (acc.set kv.2 kv.1).length := by
      simpa using hd
    show (writeSlots rest (acc.set kv.2 kv.1)).getD d 0 = _
    rw [ih _ hlen, List.foldl_cons]
    congr 1
    by_cases hkv : kv.2 = d
    · subst hkv
      rw [getD_set_self _ _ _ (by omega), if_pos rfl]
    · rw [getD_set_ne _ _ _ _ hkv, if_neg hkv]

theorem foldl_pick_of_no_match (l : List (ℕ × ℕ)) (d init : ℕ)
    (h : ∀ kv ∈ l, kv.2 ≠ d) :
    l.foldl (fun cur kv => if kv.2 = d then kv.1 else cur) init = init := by
  induction l generalizing init with
  | nil => rfl
  | cons kv rest ih =>
    have h0 : kv.2 ≠ d := h kv (List.mem_cons_self _ _)
    rw [List.foldl_cons]
    simp only [if_neg h0]
    exact ih init fun v hv => h v (List.mem_cons_of_mem _ hv)

theorem foldl_pick_unique (l : List (ℕ × ℕ)) (k d : ℕ)
    (hmem : (k, d) ∈ l) (huniq : ∀ kv ∈ l, kv.2 = d → kv = (k, d)) :
    ∀ init, l.foldl (fun cur kv => if kv.2 = d then kv.1 else cur) init = k := by
  induction l with
  | nil => exact absurd hmem (by simp)
  | cons kv rest ih =>
    intro init
    by_cases hk : kv.2 = d
    · have hkv : kv = (k, d) := huniq kv (List.mem_cons_self _ _) hk
      subst hkv
      rw [List.foldl_cons]
      simp only [if_pos rfl]
      by_cases hr : (k, d) ∈ rest
      · exact ih hr (fun v hv h2 => huniq v (List.mem_cons_of_mem _ hv) h2) k
      · refine foldl_pick_of_no_match rest d k (fun v hv h2 => ?_)
        exact hr (h2 ▸ (huniq v (List.mem_cons_of_mem _ hv) h2) ▸ hv)
    · have hrest : (k, d) ∈ rest := by
        rcases List.mem_cons.mp hmem with h1 | h1
        · exact absurd (by rw [← h1]) hk
        · exact h1
      rw [List.foldl_cons]
      simp only [if_neg hk]
      exact ih hrest (fun v hv => huniq v (List.mem_cons_of_mem _ hv)) init

theorem inverse_permutation_length (p : List ℕ) :
    (inverse_permutation p).length = p.length := by
  simp [inverse_permutation, writeSlots_length]

/-- The key access property of `inverse_permutation`: on a permutation
`p` of `0..p.length-1`, slot `p[k]` holds `k`. -/
theorem inverse_permutation_getD (p : List ℕ) (hnd : p.Nodup)
    (hbd : ∀ x ∈ p, x < p.length) (k : ℕ) (hk : k < p.length) :
    (inverse_permutation p).getD (p.getD k 0) 0 = k := by
  have hdval : p.getD k 0 = p[k] := List.getD_eq_getElem _ _ hk
  have hdlt : p.getD k 0 < p.length := hdval ▸ hbd _ (List.getElem_mem hk)
  have hmem : (k, p.getD k 0) ∈ p.enum := by
    rw [hdval]
    exact List.mk_mem_enum_iff_getElem?.mpr (by simp)
  have huniq : ∀ kv ∈ p.enum, kv.2 = p.getD k 0 → kv = (k, p.getD k 0) := by
    intro kv hkv hv
    have h1 := List.mem_enum_iff_getElem?.mp hkv
    have hlt : kv.1 < p.length := by
      by_contra hge
      rw [List.getElem?_eq_none (by omega)] at h1
      exact Option.noConfusion h1
    have h2 : p[kv.1] = kv.2 := by
      rw [List.getElem?_eq_getElem hlt] at h1
      exact Option.some.inj h1
    have : kv.1 = k := by
      have h3 := @List.Nodup.getElem_inj_iff ℕ p hnd kv.1 hlt k hk
      exact h3.mp (by rw [h2, hv, hdval])
    cases kv
    simp_all
  have hrep : (List.replicate p.length 0).getD (p.getD k 0) 0 = 0 := by
    rcases Nat.lt_or_ge (p.getD k 0) p.length with hlt | hge
    · rw [List.getD_eq_getElem _ _ (by simpa using hlt)]
      simp
    · exact List.getD_eq_default _ _ (by simpa using hge)
  unfold inverse_permutation
  rw [writeSlots_getD _ _ _ (by simpa using hdlt), hrep]
  exact foldl_pick_unique _ _ _ hmem huniq _

theorem length_filter_split {α : Type} (l : List α) (p : α → Bool) :
    (l.filter p).length + (l.filter (fun a => !(p a))).length = l.length := by
  induction l with
  | nil => rfl
  | cons a t ih =>
    by_cases h : p a <;> simp [List.filter_cons, h, ← ih] <;> omega

/-- Swapping the row and column lists of a COO triplet system assembles
the transpose matrix. -/
theorem listCooMat_swap (entries : List ℚ) (rows cols : List ℕ) (r c : ℕ) :
    listCooMat entries cols rows r c = listCooMat entries rows cols c r := by
  induction entries generalizing rows cols with
  | nil => rfl
  | cons e es ih =>
    cases rows with
    | nil =>
      cases cols with
      | nil => rfl
      | cons c0 ct => rfl
    | cons r0 rt =>
      cases cols with
      | nil => rfl
      | cons c0 ct =>
        have h1 : (if c0 = r ∧ r0 = c then e else 0) =
            (if r0 = c ∧ c0 = r then e else 0) := by
          by_cases hh : c0 = r ∧ r0 = c
          · rw [if_pos hh, if_pos ⟨hh.2, hh.1⟩]
          · rw [if_neg hh, if_neg (fun hh2 => hh ⟨hh2.2, hh2.1⟩)]
        simp only [listCooMat, List.zip_cons_cons, List.map_cons, List.sum_cons]
        rw [h1]
        have := ih rt ct
        simp only [listCooMat] at this
        rw [this]

/-! ## C6, C7, C8, C10 -/

/-- C6: requesting the gradient of the solve primitive with respect to the
index pattern (argnum 1) or the right-hand side `b` (argnum 2) is an
explicit failure (the registered zero-parameter lambda cannot accept the
forward arguments, so the request raises), never a silently returned
value; only `a_entries` (argnum 0) has a genuine rule. -/
theorem solve_coo_vjp_unsupported :
    solve_coo_vjp 1 = Except.error "err: gradient undefined" ∧
      solve_coo_vjp 2 = Except.error "err: gradient not implemented" ∧
      (∀ rule, solve_coo_vjp 1 ≠ Except.ok rule ∧ solve_coo_vjp 2 ≠ Except.ok rule) ∧
      solve_coo_vjp 0 = Except.ok grad_solve_coo_entries := by
  refine ⟨rfl, rfl, fun rule => ⟨?_, ?_⟩, rfl⟩ <;> simp [solve_coo_vjp]

/-- C7: for every normals array of the correct ravelled length, the DOF
partition built by get_args covers all `2*(width+1)*(height+1)` DOFs, is
disjoint, has lengths summing to the total DOF count, and both sides are
sorted without duplicates. -/
theorem get_args_dof_partition (width height : ℕ) (normals : List ℚ)
    (hlen : normals.length = 2 * (width + 1) * (height + 1)) :
    (∀ d, (d ∈ get_args_freedofs width height normals ∨ d ∈ fixdofs_of normals) ↔
        d < 2 * (width + 1) * (height + 1)) ∧
      (∀ d, d ∈ get_args_freedofs width height normals → d ∉ fixdofs_of normals) ∧
      (get_args_freedofs width height normals).length + (fixdofs_of normals).length =
        2 * (width + 1) * (height + 1) ∧
      List.Sorted (· < ·) (get_args_freedofs width height normals) ∧
      (get_args_freedofs width height normals).Nodup ∧
      List.Sorted (· < ·) (fixdofs_of normals) ∧
      (fixdofs_of normals).Nodup := by
  have hfree : ∀ d, d ∈ get_args_freedofs width height normals ↔
      (d < 2 * (width + 1) * (height + 1) ∧ d ∉ fixdofs_of normals) := by
    intro d
    simp [get_args_freedofs, List.mem_filter, List.mem_range]
  have hfix : ∀ d, d ∈ fixdofs_of normals ↔
      (d < 2 * (width + 1) * (height + 1) ∧ normals.getD d 0 ≠ 0) := by
    intro d
    simp [fixdofs_of, List.mem_filter, List.mem_range, hlen]
  refine ⟨?_, ?_, ?_, ?_, ?_, ?_, ?_⟩
  · intro d
    constructor
    · rintro (h | h)
      · exact ((hfree d).mp h).1
      · exact ((hfix d).mp h).1
    · intro h
      by_cases hf : d ∈ fixdofs_of normals
      · exact Or.inr hf
      · exact Or.inl ((hfree d).mpr ⟨h, hf⟩)
  · intro d h
    exact ((hfree d).mp h).2
  · -- lengths: free is the filter of the complement predicate on the range
    have hcongr : get_args_freedofs width height normals =
        (List.range (2 * (width + 1) * (height + 1))).filter
          (fun d => !(decide (normals.getD d 0 ≠ 0))) := by
      apply List.filter_congr
      intro d hd
      have hdlt : d < 2 * (width + 1) * (height + 1) := List.mem_range.mp hd
      rw [← decide_not]
      refine decide_eq_decide.mpr ⟨fun hnin h => hnin ((hfix d).mpr ⟨hdlt, h⟩),
        fun hz hin => hz ((hfix d).mp hin).2⟩
    have hfixr : fixdofs_of normals =
        (List.range (2 * (width + 1) * (height + 1))).filter
          (fun d => decide (normals.getD d 0 ≠ 0)) := by
      unfold fixdofs_of
      rw [hlen]
    rw [hcongr, hfixr, Nat.add_comm]
    have := length_filter_split (List.range (2 * (width + 1) * (height + 1)))
      (fun d => decide (normals.getD d 0 ≠ 0))
    simpa using this
  · exact (List.pairwise_lt_range _).filter _
  · exact (List.nodup_range _).filter _
  · exact (List.pairwise_lt_range _).filter _
  · exact (List.nodup_range _).filter _

/-- Witness for C7 at a concrete 1 x 0 grid with one fixed DOF. -/
theorem get_args_dof_partition_witness :
    ([(1:ℚ), 0, 0, 0].length = 2 * (1 + 1) * (0 + 1)) ∧
      ((∀ d, (d ∈ get_args_freedofs 1 0 [(1:ℚ), 0, 0, 0] ∨
          d ∈ fixdofs_of [(1:ℚ), 0, 0, 0]) ↔ d < 2 * (1 + 1) * (0 + 1)) ∧
        (∀ d, d ∈ get_args_freedofs 1 0 [(1:ℚ), 0, 0, 0] →
          d ∉ fixdofs_of [(1:ℚ), 0, 0, 0]) ∧
        (get_args_freedofs 1 0 [(1:ℚ), 0, 0, 0]).length +
            (fixdofs_of [(1:ℚ), 0, 0, 0]).length = 2 * (1 + 1) * (0 + 1) ∧
        List.Sorted (· < ·) (get_args_freedofs 1 0 [(1:ℚ), 0, 0, 0]) ∧
        (get_args_freedofs 1 0 [(1:ℚ), 0, 0, 0]).Nodup ∧
        List.Sorted (· < ·) (fixdofs_of [(1:ℚ), 0, 0, 0]) ∧
        (fixdofs_of [(1:ℚ), 0, 0, 0]).Nodup) :=
  ⟨rfl, get_args_dof_partition 1 0 [(1:ℚ), 0, 0, 0] rfl⟩

/-- C8 counterexample: the claim that increasing a density never
increases the stiffness factor is false on the code: raising the density
from 1/2 to 1 strictly increases `young_modulus`. -/
theorem young_modulus_strict_increase :
    young_modulus (1/2) 1 (1/1000000000) 3 < young_modulus 1 1 (1/1000000000) 3 := by
  norm_num [young_modulus]

/-- C8 (amended): `young_modulus` maps density to
`e_min + x ** p * (e_0 - e_min)` and is monotone non-decreasing in the
density for p > 0 (never decreases the stiffness factor). -/
theorem young_modulus_monotone (x y e_0 e_min : ℚ) (p : ℕ) (hp : 0 < p)
    (hx : 0 ≤ x) (hxy : x ≤ y) (he : e_min ≤ e_0) :
    young_modulus x e_0 e_min p ≤ young_modulus y e_0 e_min p ∧
      young_modulus x e_0 e_min p = e_min + x ^ p * (e_0 - e_min) := by
  refine ⟨?_, rfl⟩
  unfold young_modulus
  have h1 : x ^ p ≤ y ^ p := pow_le_pow_left₀ hx hxy p
  have h2 : (0:ℚ) ≤ e_0 - e_min := sub_nonneg.mpr he
  exact add_le_add_left (mul_le_mul_of_nonneg_right h1 h2) e_min

/-- Witness for the amended C8 at a concrete instance. -/
theorem young_modulus_monotone_witness :
    (0 < 3 ∧ (0:ℚ) ≤ 1/2 ∧ (1/2:ℚ) ≤ 1 ∧ (1/1000000000:ℚ) ≤ 1) ∧
      (young_modulus (1/2) 1 (1/1000000000) 3 ≤ young_modulus 1 1 (1/1000000000) 3 ∧
        young_modulus (1/2) 1 (1/1000000000) 3 =
          1/1000000000 + (1/2) ^ 3 * (1 - 1/1000000000)) :=
  ⟨⟨by decide, by norm_num, by norm_num, by norm_num⟩,
    young_modulus_monotone (1/2) 1 1 (1/1000000000) 3 (by decide)
      (by norm_num) (by norm_num) (by norm_num)⟩

/-- C10: when the optimizer hands an empty gradient buffer, the wrapper
returns the plain value and the buffer verbatim; the buffer is written
(with the AD gradient) exactly when it is nonempty. -/
theorem wrap_autograd_func_empty_grad (func : List ℝ → ℝ)
    (gradFunc : List ℝ → List ℝ) (nely nelx : ℕ) (losses : Option (List ℝ))
    (frames : Option (List (ℕ → ℕ → ℝ))) (x : List ℝ) (g : ℝ) (gs : List ℝ) :
    (wrap_autograd_func func gradFunc nely nelx losses frames x []).2.1 = [] ∧
      (wrap_autograd_func func gradFunc nely nelx losses frames x []).1 = func x ∧
      (wrap_autograd_func func gradFunc nely nelx losses frames x (g :: gs)).2.1 =
        gradFunc x := by
  refine ⟨?_, rfl, ?_⟩ <;> simp [wrap_autograd_func]

/-- C1: the registered reverse-mode rule of `solve_coo` for `a_entries`
solves the same triplet system (the reversed index stack when not
`sym_pos`) against the incoming output gradient to get `lambda_`, and
returns per entry `-lambda_[row] * ans[col]`; and the reversed index
stack assembles exactly the transpose of the forward matrix. -/
theorem grad_solve_coo_entries_spec (ans a_entries : List ℚ)
    (a_indices : List ℕ × List ℕ) (b : List ℚ) (sym_pos : Bool)
    (grad_ans : List ℚ) (e : ℕ)
    (he1 : e < a_indices.1.length) (he2 : e < a_indices.2.length) :
    (grad_solve_coo_entries ans a_entries a_indices b sym_pos grad_ans).getD e 0 =
      -((solve_coo a_entries (if sym_pos then a_indices else revStack a_indices)
          grad_ans sym_pos).getD (a_indices.1.getD e 0) 0) *
        ans.getD (a_indices.2.getD e 0) 0 ∧
      (∀ r c : ℕ,
        listCooMat a_entries (revStack a_indices).1 (revStack a_indices).2 r c =
          listCooMat a_entries a_indices.1 a_indices.2 c r) := by
  constructor
  · have hz : e < (a_indices.1.zip a_indices.2).length := by
      rw [List.length_zip]
      exact lt_min he1 he2
    unfold grad_solve_coo_entries
    rw [List.getD_eq_getElem _ _ (by simpa using hz), List.getElem_map,
      List.getElem_zip, List.getD_eq_getElem _ _ he1, List.getD_eq_getElem _ _ he2]
  · intro r c
    exact listCooMat_swap a_entries a_indices.1 a_indices.2 r c

/-- Witness for C1 at a concrete one-triplet system. -/
theorem grad_solve_coo_entries_spec_witness :
    (0 < ([0] : List ℕ).length ∧ 0 < ([0] : List ℕ).length) ∧
      ((grad_solve_coo_entries [1] [2] ([0], [0]) [1] true [1]).getD 0 0 =
        -((solve_coo [2] (if true then (([0], [0]) : List ℕ × List ℕ)
            else revStack ([0], [0])) [1] true).getD
              ((([0] : List ℕ)).getD 0 0) 0) *
          ([(1:ℚ)]).getD ((([0] : List ℕ)).getD 0 0) 0 ∧
        (∀ r c : ℕ,
          listCooMat [2] (revStack (([0], [0]) : List ℕ × List ℕ)).1
              (revStack (([0], [0]) : List ℕ × List ℕ)).2 r c =
            listCooMat [2] [0] [0] c r)) :=
  ⟨⟨by decide, by decide⟩,
    grad_solve_coo_entries_spec [1] [2] ([0], [0]) [1] true [1] 0
      (by decide) (by decide)⟩

/-! ## C9: compliance index map agrees with the assembly index map -/

/-- C9: the element-to-global-DOF indices `all_ixs` computed in
compliance coincide with the `edof` indices of get_k at the corresponding
flat element index `elx*nely + ely`, and the get_k triplet at flat
position `64*e + 8*a + b` addresses exactly the (a, b) pair of those
DOFs, so the per-element quadratic form of compliance reads the same
DOFs the stiffness contributions were assembled to. -/
theorem compliance_edof_alignment (nely elx ely a b : ℕ) (h0 : 0 < nely)
    (hely : ely < nely) (ha : a < 8) (hb : b < 8) :
    all_ixs nely a elx ely = edof nely (elx * nely + ely) a ∧
      x_list nely (64 * (elx * nely + ely) + 8 * a + b) =
        edof nely (elx * nely + ely) a ∧
      y_list nely (64 * (elx * nely + ely) + 8 * a + b) =
        edof nely (elx * nely + ely) b := by
  have hdiv : (elx * nely + ely) / nely = elx := by
    rw [Nat.add_comm, Nat.add_mul_div_right _ _ h0, Nat.div_eq_of_lt hely,
      Nat.zero_add]
  have hmod : (elx * nely + ely) % nely = ely := by
    rw [Nat.add_comm, Nat.add_mul_mod_self_right, Nat.mod_eq_of_lt hely]
  have h64 : (64 * (elx * nely + ely) + 8 * a + b) / 64 = elx * nely + ely := by
    omega
  have h648 : ((64 * (elx * nely + ely) + 8 * a + b) % 64) / 8 = a := by
    omega
  have h8 : (64 * (elx * nely + ely) + 8 * a + b) % 8 = b := by
    omega
  refine ⟨?_, ?_, ?_⟩
  · simp only [all_ixs, edof, hdiv, hmod]
  · simp only [x_list, edof, h64, h648]
  · simp only [y_list, edof, h64, h8]

/-- Witness for C9 at a concrete 1 x 1 grid. -/
theorem compliance_edof_alignment_witness :
    (0 < 1 ∧ 0 < 1 ∧ 0 < 8 ∧ 0 < 8) ∧
      (all_ixs 1 0 0 0 = edof 1 (0 * 1 + 0) 0 ∧
        x_list 1 (64 * (0 * 1 + 0) + 8 * 0 + 0) = edof 1 (0 * 1 + 0) 0 ∧
        y_list 1 (64 * (0 * 1 + 0) + 8 * 0 + 0) = edof 1 (0 * 1 + 0) 0) :=
  ⟨⟨by decide, by decide, by decide, by decide⟩,
    compliance_edof_alignment 1 0 0 0 0 (by decide) (by decide) (by decide)
      (by decide)⟩

/-! ## C3: the reduced (Dirichlet-eliminated) system -/

theorem get_stiffness_matrix_symm (e nu : ℚ) (a b : ℕ) (ha : a < 8)
    (hb : b < 8) :
    get_stiffness_matrix e nu a b = get_stiffness_matrix e nu b a := by
  interval_cases a <;> interval_cases b <;> rfl

theorem getD_map_lt {α β : Type} (f : α → β) (l : List α) (k : ℕ) (dα : α)
    (dβ : β) (h : k < l.length) :
    (l.map f).getD k dβ = f (l.getD k dα) := by
  rw [List.getD_eq_getElem _ _ (by simpa using h), List.getElem_map,
    List.getD_eq_getElem _ _ h]

theorem sum_map_filter_eq (l : List ℕ) (p : ℕ → Bool) (F : ℕ → ℚ) :
    ((l.filter p).map F).sum = (l.map fun t => if p t then F t else 0).sum := by
  induction l with
  | nil => rfl
  | cons a t ih =>
    by_cases h : p a <;> simp [List.filter_cons, h, ih]

theorem sum_map_range_eq (n : ℕ) (F : ℕ → ℚ) :
    ((List.range n).map F).sum = ∑ t in Finset.range n, F t := by
  induction n with
  | zero => rfl
  | succ m ih =>
    rw [List.range_succ, List.map_append, List.sum_append,
      Finset.sum_range_succ, ih]
    simp

theorem listCooMat_map3 (l : List ℕ) (v : ℕ → ℚ) (ri ci : ℕ → ℕ) (r c : ℕ) :
    listCooMat (l.map v) (l.map ri) (l.map ci) r c =
      (l.map fun t => if ri t = r ∧ ci t = c then v t else 0).sum := by
  unfold listCooMat
  rw [List.zip_map', List.zip_map', List.map_map]
  rfl

/-- The reduced matrix entry as a masked sum over all emitted triplets:
boolean-mask compaction only drops triplets and COO accumulation is
independent of triplet order, so the matrix assembled from the compacted
lists is the masked sum over all `trip_len` positions. -/
theorem reduced_matrix_masked (nely nelx : ℕ) (stiffness ke : ℕ → ℕ → ℚ)
    (freedofs fixdofs : List ℕ) (r c : ℕ) :
    listCooMat (kept_entries nely nelx stiffness ke freedofs)
        (kept_rows nely nelx freedofs fixdofs)
        (kept_cols nely nelx freedofs fixdofs) r c =
      ∑ t in Finset.range (trip_len nely nelx),
        if decide (y_list nely t ∈ freedofs) && decide (x_list nely t ∈ freedofs)
        then
          (if (index_map freedofs fixdofs).getD (x_list nely t) 0 = r ∧
              (index_map freedofs fixdofs).getD (y_list nely t) 0 = c
           then value_list nely stiffness ke t else 0)
        else 0 := by
  unfold kept_entries kept_rows kept_cols dof_i dof_j keptIdx
  rw [listCooMat_map3, sum_map_filter_eq, sum_map_range_eq]

/-- C3: the assembler keeps exactly the triplets whose row and column
DOFs both lie in freedofs; the kept triplets are reindexed through the
inverse permutation of `[freedofs, fixdofs]`; and the resulting reduced
matrix (duplicates accumulated by addition) is exactly symmetric. -/
theorem reduced_system_spec (nely nelx : ℕ) (stiffness : ℕ → ℕ → ℚ)
    (e nu : ℚ) (freedofs fixdofs : List ℕ) (t0 k r c : ℕ)
    (hk : k < (keptIdx freedofs (y_list nely) (x_list nely)
      (trip_len nely nelx)).length) :
    (t0 ∈ keptIdx freedofs (y_list nely) (x_list nely) (trip_len nely nelx) ↔
      t0 < trip_len nely nelx ∧ x_list nely t0 ∈ freedofs ∧
        y_list nely t0 ∈ freedofs) ∧
      ((kept_rows nely nelx freedofs fixdofs).getD k 0 =
          (index_map freedofs fixdofs).getD
            (x_list nely ((keptIdx freedofs (y_list nely) (x_list nely)
              (trip_len nely nelx)).getD k 0)) 0 ∧
        (kept_cols nely nelx freedofs fixdofs).getD k 0 =
          (index_map freedofs fixdofs).getD
            (y_list nely ((keptIdx freedofs (y_list nely) (x_list nely)
              (trip_len nely nelx)).getD k 0)) 0) ∧
      listCooMat (kept_entries nely nelx stiffness (get_stiffness_matrix e nu)
          freedofs)
        (kept_rows nely nelx freedofs fixdofs)
        (kept_cols nely nelx freedofs fixdofs) r c =
      listCooMat (kept_entries nely nelx stiffness (get_stiffness_matrix e nu)
          freedofs)
        (kept_rows nely nelx freedofs fixdofs)
        (kept_cols nely nelx freedofs fixdofs) c r := by
  refine ⟨?_, ⟨?_, ?_⟩, ?_⟩
  · simp only [keptIdx, List.mem_filter, List.mem_range, Bool.and_eq_true,
      decide_eq_true_eq]
    tauto
  · exact getD_map_lt _ _ _ 0 _ hk
  · exact getD_map_lt _ _ _ 0 _ hk
  · rw [reduced_matrix_masked, reduced_matrix_masked]
    refine Finset.sum_nbij' tripSwap tripSwap ?_ ?_ ?_ ?_ ?_
    · intro t ht
      simp only [Finset.mem_range, trip_len] at ht ⊢
      unfold tripSwap
      omega
    · intro t ht
      simp only [Finset.mem_range, trip_len] at ht ⊢
      unfold tripSwap
      omega
    · intro t ht
      unfold tripSwap
      have h1 : (64 * (t / 64) + 8 * (t % 8) + t % 64 / 8) / 64 = t / 64 := by
        omega
      have h2 : (64 * (t / 64) + 8 * (t % 8) + t % 64 / 8) % 8 = t % 64 / 8 := by
        omega
      have hx64 : (64 * (t / 64) + 8 * (t % 8) + t % 64 / 8) % 64 =
          8 * (t % 8) + t % 64 / 8 := by
        omega
      have h3 : (64 * (t / 64) + 8 * (t % 8) + t % 64 / 8) % 64 / 8 = t % 8 := by
        rw [hx64]
        omega
      rw [h1, h2, h3]
      omega
    · intro t ht
      unfold tripSwap
      have h1 : (64 * (t / 64) + 8 * (t % 8) + t % 64 / 8) / 64 = t / 64 := by
        omega
      have h2 : (64 * (t / 64) + 8 * (t % 8) + t % 64 / 8) % 8 = t % 64 / 8 := by
        omega
      have hx64 : (64 * (t / 64) + 8 * (t % 8) + t % 64 / 8) % 64 =
          8 * (t % 8) + t % 64 / 8 := by
        omega
      have h3 : (64 * (t / 64) + 8 * (t % 8) + t % 64 / 8) % 64 / 8 = t % 8 := by
        rw [hx64]
        omega
      rw [h1, h2, h3]
      omega
    · intro t ht
      have h64 : tripSwap t / 64 = t / 64 := by
        unfold tripSwap
        omega
      have hmid : tripSwap t % 64 / 8 = t % 8 := by
        unfold tripSwap
        have hx64 : (64 * (t / 64) + 8 * (t % 8) + t % 64 / 8) % 64 =
            8 * (t % 8) + t % 64 / 8 := by
          omega
        rw [hx64]
        omega
      have hlast : tripSwap t % 8 = t % 64 / 8 := by
        unfold tripSwap
        omega
      have hx : x_list nely (tripSwap t) = y_list nely t := by
        unfold x_list y_list
        rw [h64, hmid]
      have hy : y_list nely (tripSwap t) = x_list nely t := by
        unfold y_list x_list
        rw [h64, hlast]
      have hv : value_list nely stiffness (get_stiffness_matrix e nu)
          (tripSwap t) = value_list nely stiffness (get_stiffness_matrix e nu)
          t := by
        unfold value_list
        rw [h64, hmid, hlast,
          get_stiffness_matrix_symm e nu _ _ (by omega) (by omega)]
      simp only [hx, hy, hv]
      have hcb : (decide (y_list nely t ∈ freedofs) &&
            decide (x_list nely t ∈ freedofs)) =
          (decide (x_list nely t ∈ freedofs) &&
            decide (y_list nely t ∈ freedofs)) := Bool.and_comm _ _
      have hcp : ((index_map freedofs fixdofs).getD (x_list nely t) 0 = r ∧
            (index_map freedofs fixdofs).getD (y_list nely t) 0 = c) ↔
          ((index_map freedofs fixdofs).getD (y_list nely t) 0 = c ∧
            (index_map freedofs fixdofs).getD (x_list nely t) 0 = r) := and_comm
      simp only [hcb, hcp]

/-- Witness for C3 at a concrete 1 x 1 grid with one free DOF. -/
theorem reduced_system_spec_witness :
    (0 < (keptIdx [0] (y_list 1) (x_list 1) (trip_len 1 1)).length) ∧
      ((0 ∈ keptIdx [0] (y_list 1) (x_list 1) (trip_len 1 1) ↔
        0 < trip_len 1 1 ∧ x_list 1 0 ∈ [0] ∧ y_list 1 0 ∈ [0]) ∧
      (((kept_rows 1 1 [0] [1, 2, 3, 4, 5, 6, 7]).getD 0 0 =
          (index_map [0] [1, 2, 3, 4, 5, 6, 7]).getD
            (x_list 1 ((keptIdx [0] (y_list 1) (x_list 1)
              (trip_len 1 1)).getD 0 0)) 0 ∧
        (kept_cols 1 1 [0] [1, 2, 3, 4, 5, 6, 7]).getD 0 0 =
          (index_map [0] [1, 2, 3, 4, 5, 6, 7]).getD
            (y_list 1 ((keptIdx [0] (y_list 1) (x_list 1)
              (trip_len 1 1)).getD 0 0)) 0)) ∧
      listCooMat (kept_entries 1 1 (fun _ _ => 1) (get_stiffness_matrix 1 (3/10))
          [0])
        (kept_rows 1 1 [0] [1, 2, 3, 4, 5, 6, 7])
        (kept_cols 1 1 [0] [1, 2, 3, 4, 5, 6, 7]) 0 0 =
      listCooMat (kept_entries 1 1 (fun _ _ => 1) (get_stiffness_matrix 1 (3/10))
          [0])
        (kept_rows 1 1 [0] [1, 2, 3, 4, 5, 6, 7])
        (kept_cols 1 1 [0] [1, 2, 3, 4, 5, 6, 7]) 0 0) :=
  ⟨by decide,
    reduced_system_spec 1 1 (fun _ _ => 1) 1 (3/10) [0] [1, 2, 3, 4, 5, 6, 7]
      0 0 0 0 (by decide)⟩

/-! ## C2: displace pads, un-permutes, and solves the reduced system -/

theorem getD_range (n k : ℕ) (h : k < n) : (List.range n).getD k 0 = k := by
  rw [List.getD_eq_getElem _ _ (by simpa using h), List.getElem_range]

theorem getD_replicate_rat (m k : ℕ) :
    (List.replicate m (0 : ℚ)).getD k 0 = 0 := by
  rcases Nat.lt_or_ge k m with h | h
  · rw [List.getD_eq_getElem _ _ (by simpa using h)]
    simp
  · exact List.getD_eq_default _ _ (by simpa using h)

theorem solve_coo_length (a_entries : List ℚ) (a_indices : List ℕ × List ℕ)
    (b : List ℚ) (sym_pos : Bool) :
    (solve_coo a_entries a_indices b sym_pos).length = b.length := by
  simp [solve_coo]

theorem solve_coo_getD (a_entries : List ℚ) (a_indices : List ℕ × List ℕ)
    (b : List ℚ) (sym_pos : Bool) (i : ℕ) (h : i < b.length) :
    (solve_coo a_entries a_indices b sym_pos).getD i 0 =
      ((solveMatrix a_entries a_indices b.length).adjugate.mulVec
          (fun j => b.getD j.1 0)) ⟨i, h⟩
        / (solveMatrix a_entries a_indices b.length).det := by
  rw [List.getD_eq_getElem _ _ (by simpa [solve_coo] using h)]
  exact List.getElem_ofFn _ _ _

/-- The spec-modelled solver really solves: whenever the assembled matrix
is invertible, `A (solve_coo ...) = b`. -/
theorem solve_coo_mulVec (a_entries : List ℚ) (a_indices : List ℕ × List ℕ)
    (b : List ℚ) (sym_pos : Bool)
    (hdet : (solveMatrix a_entries a_indices b.length).det ≠ 0)
    (r : Fin b.length) :
    (solveMatrix a_entries a_indices b.length).mulVec
        (fun c => (solve_coo a_entries a_indices b sym_pos).getD c.1 0) r =
      b.getD r.1 0 := by
  have hvec : (fun c : Fin b.length =>
      (solve_coo a_entries a_indices b sym_pos).getD c.1 0) =
      (solveMatrix a_entries a_indices b.length).det⁻¹ •
        ((solveMatrix a_entries a_indices b.length).adjugate.mulVec
          (fun j => b.getD j.1 0)) := by
    funext c
    rw [solve_coo_getD a_entries a_indices b sym_pos c.1 c.2]
    simp [div_eq_inv_mul]
  rw [hvec, Matrix.mulVec_smul, Matrix.mulVec_mulVec, Matrix.mul_adjugate,
    Matrix.smul_mulVec_assoc, Matrix.one_mulVec]
  simp only [Pi.smul_apply, smul_eq_mul]
  rw [← mul_assoc, inv_mul_cancel₀ hdet, one_mul]

/-- Zeta-expanded form of `displace`. -/
theorem displace_eq (nely nelx : ℕ) (x_phys ke : ℕ → ℕ → ℚ) (forces : ℕ → ℚ)
    (freedofs fixdofs : List ℕ) (penal : ℕ) (e_min e_0 : ℚ) :
    displace nely nelx x_phys ke forces freedofs fixdofs penal e_min e_0 =
      (List.range (index_map freedofs fixdofs).length).map fun d =>
        (solve_coo
            (kept_entries nely nelx (stiffness_field x_phys penal e_min e_0)
              ke freedofs)
            (kept_rows nely nelx freedofs fixdofs,
              kept_cols nely nelx freedofs fixdofs)
            (freedofs.map forces) true ++
          List.replicate fixdofs.length 0).getD
          ((index_map freedofs fixdofs).getD d 0) 0 :=
  rfl

/-- C2: for a valid free/fixed DOF partition, `displace` returns a
full-length vector that is zero at every fixed DOF, equals the reduced
solver output at the free DOFs (padded with zeros and un-permuted through
the inverse index map of `[freedofs, fixdofs]`), and those free entries
solve the reduced sparse system whenever it is invertible. -/
theorem displace_spec (nely nelx : ℕ) (x_phys ke : ℕ → ℕ → ℚ)
    (forces : ℕ → ℚ) (freedofs fixdofs : List ℕ) (penal : ℕ) (e_min e_0 : ℚ)
    (hnd : (freedofs ++ fixdofs).Nodup)
    (hbd : ∀ d ∈ freedofs ++ fixdofs, d < (freedofs ++ fixdofs).length)
    (hdet : (solveMatrix
        (kept_entries nely nelx (stiffness_field x_phys penal e_min e_0)
          ke freedofs)
        (kept_rows nely nelx freedofs fixdofs,
          kept_cols nely nelx freedofs fixdofs)
        (freedofs.map forces).length).det ≠ 0) :
    (displace nely nelx x_phys ke forces freedofs fixdofs penal e_min
        e_0).length = (freedofs ++ fixdofs).length ∧
      (∀ k, k < fixdofs.length →
        (displace nely nelx x_phys ke forces freedofs fixdofs penal e_min
            e_0).getD (fixdofs.getD k 0) 0 = 0) ∧
      (∀ k, k < freedofs.length →
        (displace nely nelx x_phys ke forces freedofs fixdofs penal e_min
            e_0).getD (freedofs.getD k 0) 0 =
          (solve_coo
            (kept_entries nely nelx (stiffness_field x_phys penal e_min e_0)
              ke freedofs)
            (kept_rows nely nelx freedofs fixdofs,
              kept_cols nely nelx freedofs fixdofs)
            (freedofs.map forces) true).getD k 0) ∧
      (∀ r : Fin (freedofs.map forces).length,
        (solveMatrix
            (kept_entries nely nelx (stiffness_field x_phys penal e_min e_0)
              ke freedofs)
            (kept_rows nely nelx freedofs fixdofs,
              kept_cols nely nelx freedofs fixdofs)
            (freedofs.map forces).length).mulVec
          (fun c =>
            (displace nely nelx x_phys ke forces freedofs fixdofs penal e_min
              e_0).getD (freedofs.getD c.1 0) 0) r =
        forces (freedofs.getD r.1 0)) := by
  have hflen : (freedofs.map forces).length = freedofs.length :=
    List.length_map _ _
  have hulen : (solve_coo
      (kept_entries nely nelx (stiffness_field x_phys penal e_min e_0)
        ke freedofs)
      (kept_rows nely nelx freedofs fixdofs,
        kept_cols nely nelx freedofs fixdofs)
      (freedofs.map forces) true).length = freedofs.length := by
    rw [solve_coo_length, hflen]
  have himap : (index_map freedofs fixdofs).length =
      (freedofs ++ fixdofs).length :=
    inverse_permutation_length _
  have hfree : ∀ k, k < freedofs.length →
      (displace nely nelx x_phys ke forces freedofs fixdofs penal e_min
          e_0).getD (freedofs.getD k 0) 0 =
        (solve_coo
          (kept_entries nely nelx (stiffness_field x_phys penal e_min e_0)
            ke freedofs)
          (kept_rows nely nelx freedofs fixdofs,
            kept_cols nely nelx freedofs fixdofs)
          (freedofs.map forces) true).getD k 0 := by
    intro k hk
    have hmemd : freedofs.getD k 0 ∈ freedofs ++ fixdofs := by
      rw [List.getD_eq_getElem _ _ hk]
      exact List.mem_append_left _ (List.getElem_mem hk)
    have hdn : freedofs.getD k 0 < (freedofs ++ fixdofs).length := hbd _ hmemd
    have hip : (index_map freedofs fixdofs).getD (freedofs.getD k 0) 0 = k := by
      have hcat : (freedofs ++ fixdofs).getD k 0 = freedofs.getD k 0 :=
        List.getD_append _ _ _ _ hk
      have h2 := inverse_permutation_getD (freedofs ++ fixdofs) hnd hbd k
        (by rw [List.length_append]; omega)
      rw [hcat] at h2
      exact h2
    rw [displace_eq,
      getD_map_lt _ _ _ 0 _ (by rw [List.length_range, himap]; exact hdn),
      getD_range _ _ (by rw [himap]; exact hdn), hip,
      List.getD_append _ _ _ _ (by rw [hulen]; exact hk)]
  refine ⟨?_, ?_, hfree, ?_⟩
  · rw [displace_eq, List.length_map, List.length_range, himap]
  · intro k hk
    have hmemd : fixdofs.getD k 0 ∈ freedofs ++ fixdofs := by
      rw [List.getD_eq_getElem _ _ hk]
      exact List.mem_append_right _ (List.getElem_mem hk)
    have hdn : fixdofs.getD k 0 < (freedofs ++ fixdofs).length := hbd _ hmemd
    have hip : (index_map freedofs fixdofs).getD (fixdofs.getD k 0) 0 =
        freedofs.length + k := by
      have hcat : (freedofs ++ fixdofs).getD (freedofs.length + k) 0 =
          fixdofs.getD k 0 := by
        rw [List.getD_append_right _ _ _ _ (Nat.le_add_right _ _)]
        simp
      have h2 := inverse_permutation_getD (freedofs ++ fixdofs) hnd hbd
        (freedofs.length + k) (by rw [List.length_append]; omega)
      rw [hcat] at h2
      exact h2
    rw [displace_eq,
      getD_map_lt _ _ _ 0 _ (by rw [List.length_range, himap]; exact hdn),
      getD_range _ _ (by rw [himap]; exact hdn), hip,
      List.getD_append_right _ _ _ _ (by rw [hulen]; omega)]
    exact getD_replicate_rat _ _
  · intro r
    have hveq : (fun c : Fin (freedofs.map forces).length =>
        (displace nely nelx x_phys ke forces freedofs fixdofs penal e_min
          e_0).getD (freedofs.getD c.1 0) 0) =
        (fun c : Fin (freedofs.map forces).length =>
          (solve_coo
            (kept_entries nely nelx (stiffness_field x_phys penal e_min e_0)
              ke freedofs)
            (kept_rows nely nelx freedofs fixdofs,
              kept_cols nely nelx freedofs fixdofs)
            (freedofs.map forces) true).getD c.1 0) :=
      funext fun c => hfree c.1 (hflen ▸ c.2)
    rw [hveq, solve_coo_mulVec _ _ _ _ hdet r,
      getD_map_lt _ _ _ 0 _ (hflen ▸ r.2)]

/-- Witness for C2 at a concrete one-element grid with a single free
DOF. -/
theorem displace_spec_witness :
    ((([0] : List ℕ) ++ [1, 2, 3, 4, 5, 6, 7]).Nodup ∧
      (∀ d ∈ ([0] : List ℕ) ++ [1, 2, 3, 4, 5, 6, 7],
        d < (([0] : List ℕ) ++ [1, 2, 3, 4, 5, 6, 7]).length)) ∧
      ((displace 1 1 (fun _ _ => 1) (get_stiffness_matrix 1 (3/10))
          (fun _ => 1) [0] [1, 2, 3, 4, 5, 6, 7] 3 0 1).length =
          (([0] : List ℕ) ++ [1, 2, 3, 4, 5, 6, 7]).length ∧
        (∀ k, k < ([1, 2, 3, 4, 5, 6, 7] : List ℕ).length →
          (displace 1 1 (fun _ _ => 1) (get_stiffness_matrix 1 (3/10))
            (fun _ => 1) [0] [1, 2, 3, 4, 5, 6, 7] 3 0 1).getD
            (([1, 2, 3, 4, 5, 6, 7] : List ℕ).getD k 0) 0 = 0) ∧
        (∀ k, k < ([0] : List ℕ).length →
          (displace 1 1 (fun _ _ => 1) (get_stiffness_matrix 1 (3/10))
            (fun _ => 1) [0] [1, 2, 3, 4, 5, 6, 7] 3 0 1).getD
            (([0] : List ℕ).getD k 0) 0 =
            (solve_coo
              (kept_entries 1 1 (stiffness_field (fun _ _ => 1) 3 0 1)
                (get_stiffness_matrix 1 (3/10)) [0])
              (kept_rows 1 1 [0] [1, 2, 3, 4, 5, 6, 7],
                kept_cols 1 1 [0] [1, 2, 3, 4, 5, 6, 7])
              (([0] : List ℕ).map fun _ => (1:ℚ)) true).getD k 0) ∧
        (∀ r : Fin (([0] : List ℕ).map fun _ => (1:ℚ)).length,
          (solveMatrix
              (kept_entries 1 1 (stiffness_field (fun _ _ => 1) 3 0 1)
                (get_stiffness_matrix 1 (3/10)) [0])
              (kept_rows 1 1 [0] [1, 2, 3, 4, 5, 6, 7],
                kept_cols 1 1 [0] [1, 2, 3, 4, 5, 6, 7])
              (([0] : List ℕ).map fun _ => (1:ℚ)).length).mulVec
            (fun c =>
              (displace 1 1 (fun _ _ => 1) (get_stiffness_matrix 1 (3/10))
                (fun _ => 1) [0] [1, 2, 3, 4, 5, 6, 7] 3 0 1).getD
                (([0] : List ℕ).getD c.1 0) 0) r =
            (fun _ => (1:ℚ)) (([0] : List ℕ).getD r.1 0))) :=
  ⟨⟨by decide, by decide⟩,
    displace_spec 1 1 (fun _ _ => 1) (get_stiffness_matrix 1 (3/10))
      (fun _ => 1) [0] [1, 2, 3, 4, 5, 6, 7] 3 0 1 (by decide) (by decide)
      (by
        show (solveMatrix
            (kept_entries 1 1 (stiffness_field (fun _ _ => 1) 3 0 1)
              (get_stiffness_matrix 1 (3/10)) [0])
            (kept_rows 1 1 [0] [1, 2, 3, 4, 5, 6, 7],
              kept_cols 1 1 [0] [1, 2, 3, 4, 5, 6, 7]) 1).det ≠ 0
        rw [Matrix.det_fin_one]
        show listCooMat
          (kept_entries 1 1 (stiffness_field (fun _ _ => 1) 3 0 1)
            (get_stiffness_matrix 1 (3/10)) [0])
          (kept_rows 1 1 [0] [1, 2, 3, 4, 5, 6, 7])
          (kept_cols 1 1 [0] [1, 2, 3, 4, 5, 6, 7]) 0 0 ≠ 0
        have h1 : keptIdx [0] (y_list 1) (x_list 1) (trip_len 1 1) = [0] := by
          decide
        have h2 : kept_entries 1 1 (stiffness_field (fun _ _ => 1) 3 0 1)
            (get_stiffness_matrix 1 (3/10)) [0] =
            [value_list 1 (stiffness_field (fun _ _ => 1) 3 0 1)
              (get_stiffness_matrix 1 (3/10)) 0] := by
          unfold kept_entries
          rw [h1]
          rfl
        have h3 : kept_rows 1 1 [0] [1, 2, 3, 4, 5, 6, 7] = [0] := by decide
        have h4 : kept_cols 1 1 [0] [1, 2, 3, 4, 5, 6, 7] = [0] := by decide
        rw [h2, h3, h4]
        simp only [listCooMat, List.zip_cons_cons, List.zip_nil_right,
          List.map_cons, List.map_nil, List.sum_cons, List.sum_nil, and_self,
          if_true, add_zero]
        unfold value_list kd stiffness_field young_modulus get_stiffness_matrix
          stiffness_k
        norm_num)⟩

/-! ## C4 and C5: the Gaussian filter and the trace bookkeeping -/

theorem reflectIdx_lt (n y : ℕ) (h : y < n) : reflectIdx n (y : ℤ) = y := by
  unfold reflectIdx
  rw [Int.emod_eq_of_lt (by omega) (by omega)]
  simp only [Int.toNat_natCast]
  exact if_pos h

theorem reflectIdx_one (i : ℤ) : reflectIdx 1 i = 0 := by
  unfold reflectIdx
  have h2 : (2 * ((1:ℕ) : ℤ)) = 2 := by norm_num
  rw [h2]
  rcases Int.emod_two_eq i with h | h <;> rw [h] <;> simp

theorem gkernel_zero (sigma : ℝ) : gkernel sigma 0 = 1 := by
  unfold gkernel
  norm_num

theorem trunc_radius_one : trunc_radius 1 = 4 := by
  unfold trunc_radius
  rw [Nat.floor_eq_iff (by norm_num)]
  norm_num

theorem gnorm_one_gt : 1 < gnorm 1 := by
  unfold gnorm
  rw [trunc_radius_one]
  have h0 : (0:ℤ) ∈ Finset.Icc (-((4:ℕ) : ℤ)) ((4:ℕ) : ℤ) := by
    norm_num [Finset.mem_Icc]
  rw [← Finset.add_sum_erase _ _ h0, gkernel_zero]
  have hpos : 0 < ∑ k in (Finset.Icc (-((4:ℕ) : ℤ)) ((4:ℕ) : ℤ)).erase 0,
      gkernel 1 k := by
    refine Finset.sum_pos (fun k _ => Real.exp_pos _) ⟨1, ?_⟩
    norm_num [Finset.mem_erase, Finset.mem_Icc]
  linarith

theorem gnorm_one_pos : 0 < gnorm 1 := by
  linarith [gnorm_one_gt]

theorem gweight_one_sum : ∑ m in Finset.Icc (-((trunc_radius 1 : ℕ) : ℤ))
    ((trunc_radius 1 : ℕ) : ℤ), gweight 1 m = 1 := by
  unfold gweight
  rw [← Finset.sum_div]
  have hs : (∑ m in Finset.Icc (-((trunc_radius 1 : ℕ) : ℤ))
      ((trunc_radius 1 : ℕ) : ℤ), gkernel 1 m) = gnorm 1 := rfl
  rw [hs]
  exact div_self (ne_of_gt gnorm_one_pos)

/-- The value of the width-1 filter on a centered one-hot 1 x 9 field at
the hot cell: the central normalized kernel weight, strictly below 1. -/
theorem gaussian_onehot9_lt_one : gaussian_filter 1 9 onehot9 1 0 4 < 1 := by
  have hval : gaussian_filter 1 9 onehot9 1 0 4 = 1 / gnorm 1 := by
    unfold gaussian_filter
    have hinner : ∀ col : ℕ,
        (∑ m in Finset.Icc (-((trunc_radius 1 : ℕ) : ℤ)) ((trunc_radius 1 : ℕ) : ℤ),
          gweight 1 m * onehot9 (reflectIdx 1 (((0:ℕ) : ℤ) + m)) col) =
          onehot9 0 col := by
      intro col
      have hcong : ∀ m ∈ Finset.Icc (-((trunc_radius 1 : ℕ) : ℤ))
          ((trunc_radius 1 : ℕ) : ℤ),
          gweight 1 m * onehot9 (reflectIdx 1 (((0:ℕ) : ℤ) + m)) col =
            gweight 1 m * onehot9 0 col := by
        intro m _
        rw [reflectIdx_one]
      rw [Finset.sum_congr rfl hcong, ← Finset.sum_mul, gweight_one_sum, one_mul]
    have houter : ∀ k ∈ Finset.Icc (-((trunc_radius 1 : ℕ) : ℤ))
        ((trunc_radius 1 : ℕ) : ℤ),
        (gweight 1 k *
          ∑ m in Finset.Icc (-((trunc_radius 1 : ℕ) : ℤ)) ((trunc_radius 1 : ℕ) : ℤ),
            gweight 1 m * onehot9 (reflectIdx 1 (((0:ℕ) : ℤ) + m))
              (reflectIdx 9 (((4:ℕ) : ℤ) + k))) =
          gweight 1 k * onehot9 0 (reflectIdx 9 (((4:ℕ) : ℤ) + k)) := by
      intro k _
      rw [hinner]
    rw [Finset.sum_congr rfl houter]
    rw [Finset.sum_eq_single_of_mem 0
      (by rw [trunc_radius_one]; norm_num [Finset.mem_Icc])]
    · rw [add_zero, reflectIdx_lt 9 4 (by norm_num)]
      have h14 : onehot9 0 4 = 1 := by
        unfold onehot9
        norm_num
      rw [h14, mul_one]
      unfold gweight
      rw [gkernel_zero]
    · intro k hk hne
      rw [trunc_radius_one] at hk
      have hb := Finset.mem_Icc.mp hk
      have h9 : reflectIdx 9 (((4:ℕ) : ℤ) + k) ≠ 4 := by
        unfold reflectIdx
        rw [Int.emod_eq_of_lt (by omega) (by omega)]
        rw [if_pos (by omega)]
        omega
      have hz : onehot9 0 (reflectIdx 9 (((4:ℕ) : ℤ) + k)) = 0 := by
        unfold onehot9
        rw [if_neg (fun hp => h9 hp.2)]
      rw [hz, mul_zero]
  rw [hval, div_lt_one gnorm_one_pos]
  exact gnorm_one_gt

/-- C4 counterexample: at the default width 1 (which satisfies the
claimed bound `width <= 1`), the filter is not the identity: it strictly
shrinks the center of a one-hot 1 x 9 density field. -/
theorem gaussian_filter_width_one_not_identity :
    (1:ℝ) ≤ 1 ∧ gaussian_filter 1 9 onehot9 1 0 4 ≠ onehot9 0 4 := by
  refine ⟨le_refl _, ?_⟩
  have h1 : onehot9 0 4 = 1 := by
    unfold onehot9
    norm_num
  rw [h1]
  exact ne_of_lt gaussian_onehot9_lt_one

/-- C4 (amended): the filter is the identity exactly in the degenerate
truncation regime: for a positive width whose scipy truncation radius
`int(4*width + 0.5)` is zero (i.e. width < 1/8), the filtered field
equals the input at every in-domain cell.  At the default width 1 the
radius is 4 and the filter genuinely smooths (see the counterexample). -/
theorem gaussian_filter_radius_zero_identity (nely nelx : ℕ)
    (x : ℕ → ℕ → ℝ) (sigma : ℝ) (y c : ℕ) (hs : 0 < sigma)
    (hr : trunc_radius sigma = 0) (hy : y < nely) (hc : c < nelx) :
    gaussian_filter nely nelx x sigma y c = x y c := by
  unfold gaussian_filter
  rw [hr]
  simp only [Nat.cast_zero, neg_zero, Finset.Icc_self, Finset.sum_singleton,
    add_zero]
  have hw0 : gweight sigma 0 = 1 := by
    unfold gweight gnorm
    rw [hr]
    simp only [Nat.cast_zero, neg_zero, Finset.Icc_self, Finset.sum_singleton]
    rw [gkernel_zero]
    norm_num
  rw [hw0, one_mul, one_mul, reflectIdx_lt nely y hy, reflectIdx_lt nelx c hc]

/-- Witness for the amended C4 at width 1/16 (radius 0). -/
theorem gaussian_filter_radius_zero_identity_witness :
    ((0:ℝ) < 1/16 ∧ trunc_radius (1/16) = 0 ∧ 0 < 1 ∧ 0 < 1) ∧
      gaussian_filter 1 1 (fun _ _ => (5:ℝ)) (1/16) 0 0 =
        (fun _ _ => (5:ℝ)) 0 0 :=
  ⟨⟨by norm_num,
    by unfold trunc_radius; rw [Nat.floor_eq_zero]; norm_num,
    by decide, by decide⟩,
    gaussian_filter_radius_zero_identity 1 1 (fun _ _ => (5:ℝ)) (1/16) 0 0
      (by norm_num)
      (by unfold trunc_radius; rw [Nat.floor_eq_zero]; norm_num)
      (by decide) (by decide)⟩

/-- The default mask 1 applied to the reshaped one-hot design vector is
the one-hot grid. -/
theorem mask_reshape_x9 :
    (fun i j => (1:ℝ) * reshape 1 9 x9 i j) = onehot9 := by
  funext i j
  rw [one_mul]
  unfold reshape x9 onehot9
  rcases i with _ | i
  · rcases j with _|_|_|_|_|_|_|_|_|j
    · rfl
    · rfl
    · rfl
    · rfl
    · rfl
    · rfl
    · rfl
    · rfl
    · rfl
    · rw [List.getD_eq_default _ _
        (by show (9:ℕ) ≤ 0 * 9 + (j + 9); omega)]
      rw [if_neg (by omega : ¬(0 = 0 ∧ j + 9 = 4))]
  · rw [List.getD_eq_default _ _
      (by show (9:ℕ) ≤ (i + 1) * 9 + j; omega)]
    rw [if_neg (by omega : ¬(i + 1 = 0 ∧ j = 4))]

/-- C5 counterexample: the snapshot appended to the trace is the raw
reshaped design field, not the physical density `Filter(mask * x)`: with
the default mask 1 and filter width 1, on the one-hot design vector the
two differ. -/
theorem trace_snapshot_not_physical_density :
    (wrap_autograd_func (fun _ => 0) (fun _ => []) 1 9 (some []) (some [])
        x9 []).2.2.2 ≠ some [physical_density 1 9 1 1 x9] := by
  intro hcontra
  have h1 : (wrap_autograd_func (fun _ => 0) (fun _ => []) 1 9 (some [])
      (some []) x9 []).2.2.2 = some [reshape 1 9 x9] := rfl
  rw [h1, Option.some.injEq, List.cons.injEq] at hcontra
  have h2 : reshape 1 9 x9 = physical_density 1 9 1 1 x9 := hcontra.1
  have h3 : reshape 1 9 x9 0 4 = 1 := rfl
  have h4 : physical_density 1 9 1 1 x9 0 4 < 1 := by
    unfold physical_density
    rw [mask_reshape_x9]
    exact gaussian_onehot9_lt_one
  rw [← h2, h3] at h4
  exact lt_irrefl 1 h4

/-- C5 (amended): a wrapper built with trace lists (the objective
callback in fast_stopt) appends the scalar loss and a copy of the
reshaped raw design-variable field to them on every call; a wrapper
built without them (the constraint callback, which uses the defaults)
appends nothing; and the bookkeeping never changes the returned value or
gradient. -/
theorem wrap_autograd_func_trace (func : List ℝ → ℝ)
    (gradFunc : List ℝ → List ℝ) (nely nelx : ℕ) (ls : List ℝ)
    (fs : List (ℕ → ℕ → ℝ)) (x grad : List ℝ) :
    (wrap_autograd_func func gradFunc nely nelx (some ls) (some fs) x
        grad).2.2.1 = some (ls ++ [func x]) ∧
      (wrap_autograd_func func gradFunc nely nelx (some ls) (some fs) x
        grad).2.2.2 = some (fs ++ [reshape nely nelx x]) ∧
      (wrap_autograd_func func gradFunc nely nelx none none x
        grad).2.2.1 = none ∧
      (wrap_autograd_func func gradFunc nely nelx none none x
        grad).2.2.2 = none ∧
      (wrap_autograd_func func gradFunc nely nelx (some ls) (some fs) x
        grad).1 =
        (wrap_autograd_func func gradFunc nely nelx none none x grad).1 ∧
      (wrap_autograd_func func gradFunc nely nelx (some ls) (some fs) x
        grad).2.1 =
        (wrap_autograd_func func gradFunc nely nelx none none x grad).2.1 :=
  ⟨rfl, rfl, rfl, rfl, rfl, rfl⟩
